import Mathlib

/-
Verification of the JSON template engine of the botbuilder repository
(src/lib/intentRecognizer.d.ts, the JsonTemplates class and its helper
functions: parse, appendText, appendFunction, appendProperty, getValue,
processNode).  JavaScript values are modelled by the inductive `JSValue`
(with an explicit `undefined` constructor, since JavaScript distinguishes
`undefined` from `null`), thrown exceptions by `Option` (`none` means the
JavaScript code threw), and the in-place mutation done by `processNode`
by returning the updated node alongside its success flag.
-/

/-- Model of a JavaScript/JSON value as handled by the template engine.
`undefined` is JavaScript `undefined`, kept distinct from `null`. Numbers are
modelled as integers (the templates in this code never compute with
them). Objects are ordered key/value lists, mirroring JavaScript member
iteration order. -/
inductive JSValue : Type where
  | undefined : JSValue
  | null : JSValue
  | bool : Bool → JSValue
  | num : Int → JSValue
  | str : String → JSValue
  | arr : List JSValue → JSValue
  | obj : List (String × JSValue) → JSValue

/-- JavaScript truthiness of a value: `undefined`, `null`, `false`, `0`
and the empty string are falsy, everything else (including empty arrays
and objects) is truthy. -/
def truthy : JSValue → Bool
  | .undefined => false
  | .null => false
  | .bool b => b
  | .num n => n != 0
  | .str s => s ≠ ""
  | .arr _ => true
  | .obj _ => true

/-- Values on which `typeof v === "object"` does not hold, plus nothing
else: these are the values the `getValue` walk treats as non-addressable
(note JavaScript has `typeof null === "object"`, so `null` is NOT in
this class). -/
def scalarOrUndef : JSValue → Bool
  | .undefined => true
  | .bool _ => true
  | .num _ => true
  | .str _ => true
  | .null => false
  | .arr _ => false
  | .obj _ => false

/-- Whitespace characters removed by JavaScript `String.prototype.trim`
(the ASCII ones). -/
def jsIsWs (c : Char) : Bool :=
  c = ' ' ∨ c = '\t' ∨ c = '\n' ∨ c = '\r' ∨ c = '\x0b' ∨ c = '\x0c'

/-- JavaScript `s.trim()`: strip whitespace from both ends. -/
def jsTrim (s : String) : String :=
  String.mk (((s.data.dropWhile jsIsWs).reverse.dropWhile jsIsWs).reverse)

/-- Helper for `jsSplit`: walk the characters, cutting at each separator;
the accumulator holds the current piece reversed. -/
def splitCharsAux (sep : Char) : List Char → List Char → List String
  | [], acc => [String.mk acc.reverse]
  | c :: rest, acc =>
    if c = sep then String.mk acc.reverse :: splitCharsAux sep rest []
    else splitCharsAux sep rest (c :: acc)

/-- JavaScript `s.split(sep)` for a one-character separator: every
occurrence cuts, empty pieces are kept, and the empty string yields a
single empty piece. -/
def jsSplit (s : String) (sep : Char) : List String :=
  splitCharsAux sep s.data []

/-- Numeric value of a decimal digit list (most significant first). -/
def natOfDigits : List Char → Nat → Nat
  | [], acc => acc
  | c :: rest, acc => natOfDigits rest (acc * 10 + (c.toNat - 48))

/-- JavaScript array index key test: `m` reads an element only when it
is the canonical decimal representation of a natural number (nonempty,
all digits, no leading zero except for `"0"` itself). -/
def canonicalIndex? (m : String) : Option Nat :=
  let cs := m.data
  if cs ≠ [] ∧ cs.all (fun c => '0' ≤ c ∧ c ≤ '9') ∧ (cs.head? = some '0' → cs = ['0']) then
    some (natOfDigits cs 0)
  else none

/-- JavaScript member read `xs[m]` on an array, for a string key `m`:
a canonical decimal index in range yields the element, `"length"` yields
the length, anything else yields `undefined`. -/
def arrGet (xs : List JSValue) (m : String) : JSValue :=
  if m = "length" then .num xs.length
  else
    match canonicalIndex? m with
    | some n => xs.getD n .undefined
    | none => .undefined

/-- JavaScript member read `o[m]` on a plain object: the stored value,
or `undefined` when the key is absent. -/
def objGet (kvs : List (String × JSValue)) (m : String) : JSValue :=
  match kvs.find? (fun e => e.1 == m) with
  | some e => e.2
  | none => .undefined

/-- The loop of `getValue` (intentRecognizer.d.ts lines 761-775), one
path segment at a time.  `typeof value === "object"` admits `null`,
arrays and objects; member access on `null` throws a TypeError, which is
modelled by `none`.  On any other value the walk sets the result to
`undefined` and stops. -/
def getValueLoop : JSValue → List String → Option JSValue
  | v, [] => some v
  | v, m :: rest =>
    match v with
    | .null => none
    | .arr xs => getValueLoop (arrGet xs (jsTrim m)) rest
    | .obj kvs => getValueLoop (objGet kvs (jsTrim m)) rest
    | _ => some .undefined

/-- `getValue(data, path)` of intentRecognizer.d.ts lines 761-775: split
the path on `.`, trim each segment, walk member access left to right. -/
def getValue (data : JSValue) (path : String) : Option JSValue :=
  getValueLoop data (jsSplit path '.')

mutual
/-- A value contains no `null` anywhere (used to characterise the inputs
on which `getValue` can never throw). -/
def nullFree : JSValue → Bool
  | .null => false
  | .arr xs => nullFreeList xs
  | .obj kvs => nullFreeMembers kvs
  | _ => true
def nullFreeList : List JSValue → Bool
  | [] => true
  | v :: rest => nullFree v && nullFreeList rest
def nullFreeMembers : List (String × JSValue) → Bool
  | [] => true
  | kv :: rest => nullFree kv.2 && nullFreeMembers rest
end

mutual
/-- No object anywhere in the value carries an `@prune` or `@if` key:
the shape of every value the post-processor has already walked. -/
def directiveFree : JSValue → Bool
  | .arr xs => directiveFreeList xs
  | .obj kvs => directiveFreeMembers kvs
  | _ => true
/-- `directiveFree` on every element of an array. -/
def directiveFreeList : List JSValue → Bool
  | [] => true
  | v :: rest => directiveFree v && directiveFreeList rest
/-- No member is a directive key and every member value is
`directiveFree`. -/
def directiveFreeMembers : List (String × JSValue) → Bool
  | [] => true
  | (k, v) :: rest =>
    if k = "@prune" ∨ k = "@if" then false
    else directiveFree v && directiveFreeMembers rest
end

/-- A parsed template fragment (intentRecognizer.d.ts lines 740-759):
fixed text, a property path resolved at render time, or a function call
looked up in the registry at render time. -/
inductive Fragment : Type where
  | text : String → Fragment
  | property : String → Fragment
  | funcCall : String → String → Fragment
deriving DecidableEq

/-- JavaScript `s.indexOf(c)` for a one-character needle: the index of
the first occurrence, `-1` when absent. -/
def jsIndexOf (s : String) (c : Char) : Int :=
  match s.data.findIdx? (fun d => d = c) with
  | some i => (i : Int)
  | none => -1

/-- JavaScript `s.lastIndexOf(c)` for a one-character needle: the index
of the last occurrence, `-1` when absent. -/
def jsLastIndexOf (s : String) (c : Char) : Int :=
  match s.data.reverse.findIdx? (fun d => d = c) with
  | some i => ((s.data.length - 1 - i : Nat) : Int)
  | none => -1

/-- JavaScript `s.substr(start, len)` for a non-negative start: empty
when `len` is not positive, else `len` characters from `start`. -/
def jsSubstr (s : String) (start len : Int) : String :=
  if len ≤ 0 then "" else String.mk ((s.data.drop start.toNat).take len.toNat)

/-- Fragment emitted when the lexer closes a path expression
(intentRecognizer.d.ts lines 709-727): trim the accumulated text; if the
trimmed text is nonempty and ends in a closing parenthesis, take
`open = txt.indexOf('(')` and `close = txt.lastIndexOf(')')`; when both
are truthy as JavaScript numbers (nonzero — note `-1` is truthy), emit a
function call whose name is `txt.substr(0, open)` and whose args is
`txt.substr(open + 1, close - open - 1)` when that range is nonempty;
in every other case emit a property fragment for the whole text. -/
def emitClose (txt : String) : Fragment :=
  let trimmed := jsTrim txt
  if trimmed ≠ "" ∧ trimmed.data.getLast? = some ')' then
    let op := jsIndexOf txt '('
    let cl := jsLastIndexOf txt ')'
    if op ≠ 0 ∧ cl ≠ 0 then
      .funcCall (jsSubstr txt 0 op)
        (if cl > op + 1 then jsSubstr txt (op + 1) (cl - (op + 1)) else "")
    else .property txt
  else .property txt

/-- The three scanner states of `parse` (intentRecognizer.d.ts lines
653-658): plain literal text, inside a quoted string, inside a path
expression. -/
inductive PState : Type where
  | top : PState
  | quoted : PState
  | pathexp : PState
deriving DecidableEq

/-- The scanner loop of `parse` (intentRecognizer.d.ts lines 666-738).
Arguments mirror the mutable locals of the JavaScript loop: the
remaining characters, the current state, the accumulated text `txt`, the
closing quote `endString`, the closing path delimiter `endPath`, the
state to return to after a path expression `nextState`, the previous
character of the input (used by the escape check `json[i-1] !== '\\'`,
absent at the start), and the fragments emitted so far. -/
def parseLoop : List Char → PState → String → Char → Char → PState → Option Char → List Fragment → List Fragment
  | [], _, txt, _, _, _, _, acc =>
    if txt.length > 0 then acc ++ [.text txt] else acc
  | [c], .top, txt, endS, endP, nextS, _, acc =>
    parseLoop [] .top (txt.push c) endS endP nextS (some c) acc
  | c :: d :: rest, .top, txt, endS, endP, nextS, _, acc =>
    if c = '\'' ∨ c = '"' then
      if d = '!' then
        parseLoop rest .pathexp "" endS c .top (some '!') (acc ++ [.text txt])
      else
        parseLoop (d :: rest) .quoted (txt.push c) c endP nextS (some c) acc
    else
      parseLoop (d :: rest) .top (txt.push c) endS endP nextS (some c) acc
  | [c], .quoted, txt, endS, endP, nextS, prev, acc =>
    if c = endS ∧ prev ≠ some '\\' then
      parseLoop [] .top (txt.push c) endS endP nextS (some c) acc
    else
      parseLoop [] .quoted (txt.push c) endS endP nextS (some c) acc
  | c :: d :: rest, .quoted, txt, endS, endP, nextS, prev, acc =>
    if c = '$' ∧ d = '{' then
      parseLoop rest .pathexp "" endS '}' .quoted (some '{') (acc ++ [.text txt])
    else if c = endS ∧ prev ≠ some '\\' then
      parseLoop (d :: rest) .top (txt.push c) endS endP nextS (some c) acc
    else
      parseLoop (d :: rest) .quoted (txt.push c) endS endP nextS (some c) acc
  | c :: rest, .pathexp, txt, endS, endP, nextS, _, acc =>
    if c = endP then
      parseLoop rest nextS "" endS endP nextS (some c) (acc ++ [emitClose txt])
    else
      parseLoop rest .pathexp (txt.push c) endS endP nextS (some c) acc

/-- `parse(json, templates)` of intentRecognizer.d.ts lines 659-739,
producing the ordered fragment list.  The registry is not consulted
during parsing (function names are looked up at render time), so the
model keeps fragments syntactic.  The initial `endString`/`endPath`
characters are never read before being set, mirroring the empty-string
initialisation of the JavaScript locals. -/
def parse (json : String) : List Fragment :=
  parseLoop json.data .top "" ' ' ' ' .top none []

/-- Hexadecimal digit character for `\u` escapes. -/
def hexDigit (n : Nat) : Char :=
  if n < 10 then Char.ofNat (48 + n) else Char.ofNat (87 + n)

/-- JSON escape of one character, as `JSON.stringify` produces it. -/
def escapeJsonChar (c : Char) : String :=
  if c = '"' then "\\\""
  else if c = '\\' then "\\\\"
  else if c = '\n' then "\\n"
  else if c = '\r' then "\\r"
  else if c = '\t' then "\\t"
  else if c = '\x08' then "\\b"
  else if c = '\x0c' then "\\f"
  else if c.toNat < 32 then
    "\\u" ++ String.mk [hexDigit (c.toNat / 4096 % 16), hexDigit (c.toNat / 256 % 16),
      hexDigit (c.toNat / 16 % 16), hexDigit (c.toNat % 16)]
  else String.mk [c]

/-- JSON quoting of a string, as `JSON.stringify` produces it. -/
def quoteJson (s : String) : String :=
  "\"" ++ String.join (s.data.map escapeJsonChar) ++ "\""

mutual
/-- The platform `JSON.stringify` on the values of the model.  `undefined`
stands for an array element holding `undefined`, which stringifies as
`null`; object members holding `undefined` are omitted. -/
def jsStringify : JSValue → String
  | .undefined => "null"
  | .null => "null"
  | .bool b => if b then "true" else "false"
  | .num n => toString n
  | .str s => quoteJson s
  | .arr xs => "[" ++ String.intercalate "," (jsStringifyElems xs) ++ "]"
  | .obj kvs => "\x7b" ++ String.intercalate "," (jsStringifyMembers kvs) ++ "\x7d"
/-- Serialized forms of the elements of an array. -/
def jsStringifyElems : List JSValue → List String
  | [] => []
  | v :: rest => jsStringify v :: jsStringifyElems rest
/-- Serialized `"key":value` forms of the members of an object, members
holding `undefined` omitted. -/
def jsStringifyMembers : List (String × JSValue) → List String
  | [] => []
  | (k, v) :: rest =>
    match v with
    | .undefined => jsStringifyMembers rest
    | _ => (quoteJson k ++ ":" ++ jsStringify v) :: jsStringifyMembers rest
end

/-- The template/function table `this.templates` shared by the Template
Store and the compiled templates.  An entry is a callable taking the
data value and an optional args/path text (`none` models being invoked
with a single argument, so the second JavaScript parameter is
`undefined`); a `none` result models a thrown exception. -/
abbrev Registry : Type := List (String × (JSValue → Option String → Option JSValue))

/-- Lookup in the registry, `none` when the name is absent. -/
def regLookup (reg : Registry) (name : String) : Option (JSValue → Option String → Option JSValue) :=
  match reg.find? (fun e => e.1 == name) with
  | some e => some e.2
  | none => none

/-- Execution of one fragment against a data value: `appendText`,
`appendProperty` and `appendFunction` of intentRecognizer.d.ts lines
740-759.  A function-call fragment looks its name up in the registry at
call time; when the name is absent, `templates[name](data, args)` is a
call of `undefined` and throws (`none`).  A function result that is not
a string is serialized with `JSON.stringify`; a result of `undefined`
serializes to the text `undefined` (the JavaScript `+=` coercion). -/
def applyFragment (reg : Registry) (f : Fragment) (data : JSValue) : Option String :=
  match f with
  | .text s => some s
  | .property path =>
    match getValue data path with
    | none => none
    | some v =>
      match v with
      | .str s => some s
      | .undefined => some ""
      | .null => some ""
      | _ => some (jsStringify v)
  | .funcCall name args =>
    match regLookup reg name with
    | none => none
    | some fn =>
      match fn data (some args) with
      | none => none
      | some r =>
        match r with
        | .str s => some s
        | .undefined => some "undefined"
        | _ => some (jsStringify r)

/-- The fragment loop `parsed.forEach((fn) => obj += fn(data))` of the
compiled closure, with `acc` the text accumulated so far. -/
def runFragmentsAux (reg : Registry) (data : JSValue) : List Fragment → String → Option String
  | [], acc => some acc
  | f :: rest, acc =>
    match applyFragment reg f data with
    | none => none
    | some s => runFragmentsAux reg data rest (acc ++ s)

/-- All fragments of a template executed in order against a data value,
concatenated from the empty string. -/
def runFragments (reg : Registry) (fs : List Fragment) (data : JSValue) : Option String :=
  runFragmentsAux reg data fs ""

/-- The array loop of the compiled closure (lines 630-639): for each
child run every fragment into the shared accumulator, preceded by the
connector, which is empty for the first child and `,` afterwards. -/
def runChildren (reg : Registry) (fs : List Fragment) : List JSValue → String → String → Option String
  | [], _, acc => some acc
  | child :: rest, connector, acc =>
    match runFragmentsAux reg child fs (acc ++ connector) with
    | none => none
    | some acc2 => runChildren reg fs rest "," acc2

/-- The closure returned by `JsonTemplates.compile` (intentRecognizer.d.ts
lines 623-649), as a function of the parsed fragment list and the
registry it captured.  A truthy (nonempty, present) path is resolved
first: an array value iterates the fragments per element inside `[ ]`;
a value with `typeof value === "object"` (an object, or `null`) runs the
fragments against it; any other value leaves the output empty.  A falsy
path (absent, or the empty string) runs the fragments against the data
itself. -/
def compiledTemplate (fs : List Fragment) (reg : Registry) (data : JSValue) (path : Option String) : Option String :=
  match path with
  | some p =>
    if p ≠ "" then
      match getValue data p with
      | none => none
      | some (.arr xs) =>
        match runChildren reg fs xs "" "[" with
        | none => none
        | some s => some (s ++ "]")
      | some (.obj kvs) => runFragments reg fs (.obj kvs)
      | some .null => runFragments reg fs .null
      | some _ => some ""
    else runFragments reg fs data
  | none => runFragments reg fs data

/-- A compiled template as `add` stores it in the registry: invoked as
`templates[name](data, args)`, the args text becomes the path, and the
produced text is a string value. -/
def compiledEntry (fs : List Fragment) (reg : Registry) : JSValue → Option String → Option JSValue :=
  fun data path => (compiledTemplate fs reg data path).map .str

/-- `JsonTemplates.render` (intentRecognizer.d.ts lines 569-574): look
the name up; an absent (falsy) entry returns `undefined`, otherwise the
entry is invoked with the data as its single argument. -/
def render (reg : Registry) (name : String) (data : JSValue) : Option JSValue :=
  match regLookup reg name with
  | none => some .undefined
  | some f => f data none

/-- A value that is `undefined` or `null` (the pair tested by the
`nullMembers` pruning rule). -/
def isNullish : JSValue → Bool
  | .undefined => true
  | .null => true
  | _ => false

/-- A string value whose trimmed text is empty (the `emptyStrings`
pruning rule). -/
def isEmptyTrimStr : JSValue → Bool
  | .str s => jsTrim s = ""
  | _ => false

/-- An empty array value (the `emptyArrays` member pruning rule). -/
def isEmptyArr : JSValue → Bool
  | .arr [] => true
  | _ => false

/-- The Prune Config: the three flags consulted by `processNode`, each
holding the JavaScript truthiness of the corresponding member of the
prune options object. -/
structure Prune : Type where
  nullMembers : Bool
  emptyStrings : Bool
  emptyArrays : Bool
deriving DecidableEq

/-- The `{}` options `postProcess` starts from: every flag absent, hence
falsy. -/
def emptyPrune : Prune := ⟨false, false, false⟩

/-- Flag produced by `Object.assign({}, prune, value)` for one of the
three consulted keys: the truthiness of the key's value in the directive
object when the key is present (even when its value is falsy), else the
inherited flag. -/
def pruneFlag (kvs : List (String × JSValue)) (k : String) (dflt : Bool) : Bool :=
  match kvs.find? (fun e => e.1 == k) with
  | some e => truthy e.2
  | none => dflt

/-- `prune = Object.assign({}, prune, value)` (line 799): a directive
value that is an object overrides the flags whose keys it carries; any
other directive value contributes none of the three consulted keys and
leaves the config unchanged. -/
def mergePrune (p : Prune) (v : JSValue) : Prune :=
  match v with
  | .obj kvs =>
    ⟨pruneFlag kvs "nullMembers" p.nullMembers,
     pruneFlag kvs "emptyStrings" p.emptyStrings,
     pruneFlag kvs "emptyArrays" p.emptyArrays⟩
  | _ => p

/-- The Prune Config in force after scanning the given members at one
object level: every `@prune` member merges its value, in order; nothing
inside a member's value is consulted. -/
def pruneAfter (p : Prune) : List (String × JSValue) → Prune
  | [] => p
  | (k, v) :: rest => pruneAfter (if k = "@prune" then mergePrune p v else p) rest

/-- Resolution of one collected `@if` condition against a node:
`getValue(node, condition)` requires the condition to be a string (on
any other value `path.split` throws, modelled by `none`). -/
def condValue (node : JSValue) (c : JSValue) : Option JSValue :=
  match c with
  | .str s => getValue node s
  | _ => none

/-- The condition loop of `processNode` (lines 827-831): conditions are
checked in collection order; the first falsy resolved value fails the
node; a throw while resolving propagates. -/
def evalConditions (node : JSValue) : List JSValue → Option Bool
  | [] => some true
  | c :: rest =>
    match condValue node c with
    | none => none
    | some v => if truthy v then evalConditions node rest else some false

mutual
/-- `processNode(node, prune)` of intentRecognizer.d.ts lines 776-834.
The JavaScript function mutates the node in place and returns a success
flag; the model returns the updated node together with the flag, and
`none` when the JavaScript code throws.  An array fails afterwards when
`emptyArrays` pruning is active and it has become empty; an object
collects its `@if` conditions while its members are processed and
evaluates them at the end against its pruned self; every other value
(including `null` and `undefined`, whose member iteration is empty)
succeeds unchanged. -/
def processNode : JSValue → Prune → Option (JSValue × Bool)
  | .arr xs, p =>
    match processArr xs p with
    | none => none
    | some ys => some (.arr ys, !(p.emptyArrays && ys.isEmpty))
  | .obj kvs, p =>
    match processMembers kvs p with
    | none => none
    | some (ms, cs) =>
      match evalConditions (.obj ms) cs with
      | none => none
      | some b => some (.obj ms, b)
  | v, _ => some (v, true)
/-- The array loop of `processNode` (lines 779-786), iterating from the
last index down to the first (hence the recursion processes the tail,
the higher indices, before the head): an element is spliced out when it
is nullish under `nullMembers` pruning, or when processing it fails. -/
def processArr : List JSValue → Prune → Option (List JSValue)
  | [], _ => some []
  | v :: rest, p =>
    match processArr rest p with
    | none => none
    | some rest2 =>
      if p.nullMembers && isNullish v then some rest2
      else
        match processNode v p with
        | none => none
        | some (v2, ok) => if ok then some (v2 :: rest2) else some rest2
/-- The member loop of `processNode` (lines 794-824), in iteration
order: `@prune` merges into the config used for the remaining members
and is removed; `@if` is collected and removed; any other member is
dropped by the active member pruning rules or by a failing recursive
call, and kept (with its processed value) otherwise.  Returns the
surviving members and the collected conditions. -/
def processMembers : List (String × JSValue) → Prune → Option (List (String × JSValue) × List JSValue)
  | [], _ => some ([], [])
  | (k, v) :: rest, p =>
    if k = "@prune" then processMembers rest (mergePrune p v)
    else if k = "@if" then
      match processMembers rest p with
      | none => none
      | some (ms, cs) => some (ms, v :: cs)
    else if p.nullMembers && isNullish v then processMembers rest p
    else if p.emptyStrings && isEmptyTrimStr v then processMembers rest p
    else if p.emptyArrays && isEmptyArr v then processMembers rest p
    else
      match processNode v p with
      | none => none
      | some (v2, ok) =>
        if ok then
          match processMembers rest p with
          | none => none
          | some (ms, cs) => some ((k, v2) :: ms, cs)
        else processMembers rest p
end

/-- Outcome of the array loop for a single element: `some none` when the
element is removed, `some (some v)` when it is kept as `v`, `none` when
processing it throws. -/
def elemResult (v : JSValue) (p : Prune) : Option (Option JSValue) :=
  if p.nullMembers && isNullish v then some none
  else
    match processNode v p with
    | none => none
    | some (v2, ok) => if ok then some (some v2) else some none

/-- `JsonTemplates.postProcess` (intentRecognizer.d.ts lines 599-605):
walk the value with the empty prune options; a failed root yields
`undefined`, otherwise the processed value is returned. -/
def postProcess (v : JSValue) : Option JSValue :=
  match processNode v emptyPrune with
  | none => none
  | some (_, false) => some .undefined
  | some (r, true) => some r

/-- `JsonTemplates.renderAsJSON` (intentRecognizer.d.ts lines 584-593).
`JSON.parse` is a platform builtin, not code of this repository, so it
is passed in as `parseJson` (covering also its coercion of a non-string
argument), with `none` modelling a thrown parse failure.  A falsy
rendering result returns `null`; the optional `postProcess` argument is
a value run through the directive walk when truthy or `undefined`. -/
def renderAsJSON (parseJson : JSValue → Option JSValue) (reg : Registry) (name : String)
    (data : JSValue) (pp : JSValue) : Option JSValue :=
  match render reg name data with
  | none => none
  | some json =>
    if truthy json = false then some .null
    else
      match parseJson json with
      | none => none
      | some obj =>
        match pp with
        | .undefined => postProcess obj
        | _ => if truthy pp then postProcess obj else some obj

/-- Per-element application of a fallible function, propagating the
first failure (the `Option`-monad traversal, written out). -/
def mapOption (f : α → Option β) : List α → Option (List β)
  | [] => some []
  | x :: xs =>
    match f x with
    | none => none
    | some y =>
      match mapOption f xs with
      | none => none
      | some ys => some (y :: ys)

/-- Texts joined with a comma between consecutive entries. -/
def commaJoin : List String → String
  | [] => ""
  | [r] => r
  | r :: rs => r ++ "," ++ commaJoin rs

/-- Texts each preceded by a comma, concatenated. -/
def commaPre : List String → String
  | [] => ""
  | r :: rs => "," ++ r ++ commaPre rs

/-- The fragment C1 claims the lexer emits on closing a path
expression, word for word: after trimming, when the text ends in `)` and
contains `(`, a function call split at the first `(` and the last `)`;
otherwise a property fragment for the whole text.  (Stated over the
untrimmed text for the split, matching the code's use of `txt`.) -/
def c1Spec (txt : String) : Fragment :=
  let trimmed := jsTrim txt
  if trimmed ≠ "" ∧ trimmed.data.getLast? = some ')' ∧ txt.data.contains '(' = true then
    .funcCall (jsSubstr txt 0 (jsIndexOf txt '('))
      (jsSubstr txt (jsIndexOf txt '(' + 1) (jsLastIndexOf txt ')' - (jsIndexOf txt '(' + 1)))
  else .property txt

/-- The amended C1 statement: the function-call form additionally
requires the first `(` and the last `)` not to sit at index 0 (the code
tests the two indices for JavaScript truthiness, so 0 disables the split
while the absence value -1 does not), and when no `(` exists the emitted
function call has an empty name. -/
def c1Amended (txt : String) : Fragment :=
  let trimmed := jsTrim txt
  if trimmed ≠ "" ∧ trimmed.data.getLast? = some ')' ∧ jsIndexOf txt '(' ≠ 0 ∧ jsLastIndexOf txt ')' ≠ 0 then
    .funcCall (jsSubstr txt 0 (jsIndexOf txt '('))
      (jsSubstr txt (jsIndexOf txt '(' + 1) (jsLastIndexOf txt ')' - (jsIndexOf txt '(' + 1)))
  else .property txt

/-
Theorems.  Helper lemmas come first, then one theorem per claim
(with its witness or counterexample where required).
-/

/-- Structural induction principle for `JSValue` with membership
hypotheses for the values nested inside arrays and objects. -/
theorem jsval_induction (motive : JSValue → Prop)
    (hundefined : motive .undefined) (hnull : motive .null)
    (hbool : ∀ b, motive (.bool b)) (hnum : ∀ n, motive (.num n))
    (hstr : ∀ s, motive (.str s))
    (harr : ∀ xs, (∀ v, v ∈ xs → motive v) → motive (.arr xs))
    (hobj : ∀ kvs, (∀ kv, kv ∈ kvs → motive kv.2) → motive (.obj kvs)) :
    ∀ v, motive v := by
  have key : ∀ n (v : JSValue), sizeOf v ≤ n → motive v := by
    intro n
    induction n with
    | zero =>
      intro v hv
      exfalso
      cases v <;> simp at hv
    | succ n ih =>
      intro v hv
      cases v with
      | undefined => exact hundefined
      | null => exact hnull
      | bool b => exact hbool b
      | num m => exact hnum m
      | str s => exact hstr s
      | arr xs =>
        refine harr xs (fun w hw => ih w ?_)
        have h1 := List.sizeOf_lt_of_mem hw
        have h2 : sizeOf (JSValue.arr xs) = 1 + sizeOf xs := by simp
        omega
      | obj kvs =>
        refine hobj kvs (fun kv hkv => ih kv.2 ?_)
        have h1 := List.sizeOf_lt_of_mem hkv
        have h2 : sizeOf (JSValue.obj kvs) = 1 + sizeOf kvs := by simp
        have h3 : sizeOf kv.2 < sizeOf kv := by
          obtain ⟨k, w⟩ := kv
          simp
        omega
  intro v
  exact key (sizeOf v) v (Nat.le_refl _)

/-- C1: FALSIFIED at the path-expression text `x)`.  The trimmed text
ends in `)` but contains no `(`, so the claim demands a property
fragment for the whole text; the code however takes `indexOf('(') = -1`,
which is truthy as a JavaScript number, and emits a function-call
fragment with an empty name and args `x`.  The third conjunct shows the
lexer emitting that fragment for a whole template. -/
theorem c1_counterexample :
    emitClose "x)" = Fragment.funcCall "" "x" ∧
    c1Spec "x)" = Fragment.property "x)" ∧
    parse "\"!x)\"" = [Fragment.text "", Fragment.funcCall "" "x"] :=
  ⟨rfl, rfl, rfl⟩

/-- C1 (amended): for every path-expression text closed by the lexer,
after trimming, if the text is nonempty and ends in `)`, and neither the
index of the first `(` nor the index of the last `)` is 0 (the code
tests both indices for JavaScript truthiness, so index 0 disables the
split while a missing `(`, index -1, does not), the emitted fragment is
a function call whose name is the text before the first `(` (empty when
there is no `(`) and whose args is the text strictly between the first
`(` and the last `)`; otherwise a property fragment for the whole
text. -/
theorem c1_close_fragment : ∀ txt : String, emitClose txt = c1Amended txt := by
  intro txt
  simp only [emitClose, c1Amended, jsSubstr]
  split_ifs <;> first | rfl | tauto | omega

/-- C7: FALSIFIED on `renderAsJSON`.  For a name absent from the store,
`render` returns `undefined` as claimed, but `renderAsJSON` hits the
`if (!json) return null` line and returns `null`, which is a different
JavaScript value than the claimed `undefined`. -/
theorem c7_counterexample :
    render [] "missing" (.obj []) = some JSValue.undefined ∧
    renderAsJSON (fun _ => none) [] "missing" (.obj []) .undefined = some JSValue.null ∧
    JSValue.null ≠ JSValue.undefined :=
  ⟨rfl, rfl, fun h => JSValue.noConfusion h⟩

/-- C7 (amended): for every name not registered in the Template Store
and every data value, `render` returns `undefined` and `renderAsJSON`
returns `null` (not `undefined`), and neither throws (both produce a
value). -/
theorem c7_lookup_miss :
    ∀ (parseJson : JSValue → Option JSValue) (reg : Registry) (name : String) (data pp : JSValue),
    regLookup reg name = none →
    render reg name data = some JSValue.undefined ∧
    renderAsJSON parseJson reg name data pp = some JSValue.null := by
  intro parseJson reg name data pp h
  have hr : render reg name data = some JSValue.undefined := by
    unfold render
    rw [h]
  refine ⟨hr, ?_⟩
  unfold renderAsJSON
  rw [hr]
  rfl

/-- C7 witness: the amended theorem applied to the empty store. -/
theorem c7_lookup_miss_witness :
    render [] "missing" (.num 5) = some JSValue.undefined ∧
    renderAsJSON (fun _ => some .null) [] "missing" (.num 5) (.bool true) = some JSValue.null :=
  c7_lookup_miss (fun _ => some .null) [] "missing" (.num 5) (.bool true) rfl

/-- Helper for C8: the fragment loop throws whenever the list holds a
function-call fragment whose name the registry lacks, whatever text was
accumulated before it. -/
theorem runFragmentsAux_missing :
    ∀ (fs : List Fragment) (reg : Registry) (data : JSValue) (acc fname args : String),
    Fragment.funcCall fname args ∈ fs → regLookup reg fname = none →
    runFragmentsAux reg data fs acc = none := by
  intro fs
  induction fs with
  | nil =>
    intro reg data acc fname args hmem _
    simp at hmem
  | cons f rest ih =>
    intro reg data acc fname args hmem hlook
    rcases List.mem_cons.mp hmem with heq | htail
    · subst heq
      simp only [runFragmentsAux, applyFragment]
      rw [hlook]
    · simp only [runFragmentsAux]
      cases h : applyFragment reg f data with
      | none => rfl
      | some s => exact ih reg data (acc ++ s) fname args htail hlook

/-- C8: a compiled template holding a function-call fragment whose name
is absent from the registry at render time fails the whole render call:
`templates[name]` is `undefined`, calling it throws, and the throw
propagates out of `render` (the call never returns text, empty or
otherwise). -/
theorem c8_missing_function :
    ∀ (store reg : Registry) (tname fname args : String) (fs : List Fragment) (data : JSValue),
    regLookup store tname = some (compiledEntry fs reg) →
    Fragment.funcCall fname args ∈ fs →
    regLookup reg fname = none →
    render store tname data = none := by
  intro store reg tname fname args fs data hstore hmem hlook
  unfold render
  rw [hstore]
  simp only [compiledEntry, compiledTemplate]
  rw [show runFragments reg fs data = none from
    runFragmentsAux_missing fs reg data "" fname args hmem hlook]
  rfl

/-- C8 witness: a store holding one compiled template that calls the
unregistered function `g`; rendering it throws. -/
theorem c8_missing_function_witness :
    render [("t", compiledEntry [Fragment.funcCall "g" ""] [])] "t" (.obj []) = none :=
  c8_missing_function [("t", compiledEntry [Fragment.funcCall "g" ""] [])] [] "t" "g" ""
    [Fragment.funcCall "g" ""] (.obj []) rfl (List.mem_singleton.mpr rfl) rfl

/-- Helper for C10: splitting any path text yields at least one
segment. -/
theorem splitCharsAux_ne_nil : ∀ (cs acc : List Char) (sep : Char), splitCharsAux sep cs acc ≠ [] := by
  intro cs
  induction cs with
  | nil => intro acc sep; simp [splitCharsAux]
  | cons c rest ih =>
    intro acc sep
    simp only [splitCharsAux]
    by_cases h : c = sep
    · rw [if_pos h]; simp
    · rw [if_neg h]; exact ih (c :: acc) sep

/-- Helper for C10: `getValue` on the data value `null` throws for every
path, because `typeof null === "object"` admits `null` to member access,
which throws a TypeError. -/
theorem getValue_null : ∀ path : String, getValue JSValue.null path = none := by
  intro path
  unfold getValue
  cases h : jsSplit path '.' with
  | nil => exact absurd h (splitCharsAux_ne_nil path.data [] '.')
  | cons m rest => rfl

/-- C10: FALSIFIED on the empty template.  Its fragment list is empty,
so invoking its compiled form at a path resolving to `null` runs no
fragment and produces exactly the empty text, contradicting the claimed
"does not produce empty text"; the structured-branch mechanism itself is
restated and proved in the amended theorem. -/
theorem c10_counterexample :
    getValue (.obj [("a", .null)]) "a" = some JSValue.null ∧
    compiledTemplate (parse "") [] (.obj [("a", .null)]) (some "a") = some "" :=
  ⟨rfl, rfl⟩

/-- C10 (amended): a nonempty path resolving to `null` takes the
structured branch (`typeof null === "object"`), so the output is the
concatenation of every fragment executed against `null` — empty text
arises only when the fragments produce it — and a property fragment
executed against `null` attempts member access on `null` and throws. -/
theorem c10_null_path :
    ∀ (fs : List Fragment) (reg : Registry) (data : JSValue) (p : String),
    p ≠ "" → getValue data p = some JSValue.null →
    compiledTemplate fs reg data (some p) = runFragments reg fs JSValue.null ∧
    (∀ q, applyFragment reg (.property q) JSValue.null = none) := by
  intro fs reg data p hp hv
  constructor
  · simp only [compiledTemplate]
    rw [if_pos hp, hv]
  · intro q
    simp only [applyFragment]
    rw [getValue_null q]

/-- C10 witness: a one-property template bound at a path resolving to
`null`: the fragments do run against `null`, and the property fragment
throws there. -/
theorem c10_null_path_witness :
    compiledTemplate [Fragment.property "x"] [] (.obj [("a", .null)]) (some "a") =
      runFragments [] [Fragment.property "x"] JSValue.null ∧
    applyFragment [] (.property "x") JSValue.null = none := by
  have h := c10_null_path [Fragment.property "x"] [] (.obj [("a", .null)]) "a"
    (by decide) rfl
  exact ⟨h.1, h.2 "x"⟩

/-- Helper: running the fragment loop from an accumulator prepends the
accumulator to the loop's output from the empty string. -/
theorem runFragmentsAux_acc :
    ∀ (fs : List Fragment) (reg : Registry) (data : JSValue) (acc : String),
    runFragmentsAux reg data fs acc = (runFragments reg fs data).map (fun s => acc ++ s) := by
  intro fs
  induction fs with
  | nil =>
    intro reg data acc
    simp [runFragments, runFragmentsAux]
  | cons f rest ih =>
    intro reg data acc
    simp only [runFragments, runFragmentsAux]
    cases h : applyFragment reg f data with
    | none => rfl
    | some s =>
      dsimp only
      rw [ih reg data (acc ++ s), ih reg data ("" ++ s)]
      cases h2 : runFragments reg rest data with
      | none => rfl
      | some t => simp [String.append_assoc]

/-- Helper: a fallible per-element map yields a list of the same
length. -/
theorem mapOption_length {α β : Type} :
    ∀ (f : α → Option β) (xs : List α) (ys : List β),
    mapOption f xs = some ys → ys.length = xs.length := by
  intro f xs
  induction xs with
  | nil =>
    intro ys h
    simp only [mapOption, Option.some.injEq] at h
    subst h
    rfl
  | cons x rest ih =>
    intro ys h
    simp only [mapOption] at h
    cases hx : f x with
    | none => rw [hx] at h; simp at h
    | some y =>
      rw [hx] at h
      cases hr : mapOption f rest with
      | none => rw [hr] at h; simp at h
      | some ys2 =>
        rw [hr] at h
        simp only [Option.some.injEq] at h
        subst h
        simp [ih ys2 hr]

/-- Helper: comma-joined texts, written via the loop's "comma before
every later element" shape. -/
theorem commaJoin_pre : ∀ (r : String) (rs : List String), commaJoin (r :: rs) = r ++ commaPre rs := by
  intro r rs
  induction rs generalizing r with
  | nil => simp [commaJoin, commaPre]
  | cons r2 rest ih =>
    simp only [commaJoin, commaPre]
    rw [ih r2]
    simp [String.append_assoc]

/-- Helper: the child loop with connector `,` appends the comma-prefixed
render of every child to the accumulator, failing when any child
fails. -/
theorem runChildren_comma :
    ∀ (xs : List JSValue) (reg : Registry) (fs : List Fragment) (acc : String),
    runChildren reg fs xs "," acc =
      (mapOption (fun child => runFragments reg fs child) xs).map (fun rs => acc ++ commaPre rs) := by
  intro xs
  induction xs with
  | nil =>
    intro reg fs acc
    simp [runChildren, mapOption, commaPre]
  | cons x rest ih =>
    intro reg fs acc
    simp only [runChildren, mapOption]
    rw [runFragmentsAux_acc fs reg x (acc ++ ",")]
    cases h : runFragments reg fs x with
    | none => rfl
    | some r =>
      simp only [Option.map_some']
      rw [ih reg fs (acc ++ "," ++ r)]
      cases h2 : mapOption (fun child => runFragments reg fs child) rest with
      | none => rfl
      | some rs =>
        dsimp only
        simp [commaPre, String.append_assoc]

/-- Helper: the full array branch of the compiled closure equals the
bracket-wrapped comma-join of the per-child renders. -/
theorem runChildren_join :
    ∀ (xs : List JSValue) (reg : Registry) (fs : List Fragment),
    (match runChildren reg fs xs "" "[" with
     | none => none
     | some s => some (s ++ "]")) =
      (mapOption (fun child => runFragments reg fs child) xs).map
        (fun rs => "[" ++ commaJoin rs ++ "]") := by
  intro xs reg fs
  cases xs with
  | nil => simp [runChildren, mapOption, commaJoin]
  | cons x rest =>
    simp only [runChildren, mapOption]
    rw [runFragmentsAux_acc fs reg x ("[" ++ "")]
    cases h : runFragments reg fs x with
    | none => rfl
    | some r =>
      simp only [Option.map_some']
      rw [runChildren_comma rest reg fs ("[" ++ "" ++ r)]
      cases h2 : mapOption (fun child => runFragments reg fs child) rest with
      | none => rfl
      | some rs =>
        simp only [Option.map_some']
        rw [commaJoin_pre r rs]
        simp [String.append_assoc]

/-- C2: FALSIFIED at the empty path.  The claim covers every invocation
`CompiledTemplate(data, path)`, but a JavaScript empty-string path is
falsy, so `if (path)` sends it to the no-path branch: here the path `""`
resolves to `undefined`, the claim demands empty output, yet the
template renders its fragment against the whole data value. -/
theorem c2_counterexample :
    getValue (.obj []) "" = some JSValue.undefined ∧
    compiledTemplate (parse "A") [] (.obj []) (some "") = some "A" ∧
    (some "A" : Option String) ≠ some "" := by
  refine ⟨rfl, rfl, by simp⟩

/-- C2 (amended): for every compiled template invoked with a nonempty
path (an empty path is falsy and takes the no-path branch): a path
resolving to a sequence of n elements renders every fragment per
element, joins the n per-element concatenations with `,` and wraps them
in `[` and `]` (the per-element list keeps length n); a path resolving
to an object renders the fragment concatenation against that value; a
path resolving to a scalar or `undefined` yields the empty text. -/
theorem c2_bound_path :
    ∀ (fs : List Fragment) (reg : Registry) (data : JSValue) (p : String), p ≠ "" →
    (∀ xs, getValue data p = some (.arr xs) →
      compiledTemplate fs reg data (some p) =
        (mapOption (fun child => runFragments reg fs child) xs).map
          (fun rs => "[" ++ commaJoin rs ++ "]") ∧
      ∀ rs, mapOption (fun child => runFragments reg fs child) xs = some rs →
        rs.length = xs.length) ∧
    (∀ kvs, getValue data p = some (.obj kvs) →
      compiledTemplate fs reg data (some p) = runFragments reg fs (.obj kvs)) ∧
    (∀ v, getValue data p = some v → scalarOrUndef v = true →
      compiledTemplate fs reg data (some p) = some "") := by
  intro fs reg data p hp
  refine ⟨?_, ?_, ?_⟩
  · intro xs hv
    constructor
    · simp only [compiledTemplate]
      rw [if_pos hp, hv]
      exact runChildren_join xs reg fs
    · intro rs h
      exact mapOption_length _ _ _ h
  · intro kvs hv
    simp only [compiledTemplate]
    rw [if_pos hp, hv]
  · intro v hv hs
    simp only [compiledTemplate]
    rw [if_pos hp, hv]
    cases v <;> first | rfl | simp [scalarOrUndef] at hs

/-- C2 witness: a fixed-text template bound at a path resolving to a
two-element sequence renders as `[x,x]`. -/
theorem c2_bound_path_witness :
    compiledTemplate [Fragment.text "x"] [] (.obj [("a", .arr [.obj [], .obj []])]) (some "a") =
      some "[x,x]" := by
  have h := (c2_bound_path [Fragment.text "x"] [] (.obj [("a", .arr [.obj [], .obj []])]) "a"
    (by decide)).1 [.obj [], .obj []] rfl
  rw [h.1]
  rfl

/-- C5: the array branch of `processNode`.  The loop walks the indices
from the last down to the first (the model's recursion processes the
tail — the higher indices — before the head, mirroring the splice-safe
order); an element is removed exactly when it is `null`/`undefined`
under active `nullMembers` pruning or when recursively processing it
fails; and the array node itself fails exactly when `emptyArrays`
pruning is active and the filtered array is empty, so the parent member
is dropped instead of keeping an empty array. -/
theorem c5_array_pruning :
    ∀ (xs : List JSValue) (p : Prune),
    processNode (.arr xs) p =
      (processArr xs p).map (fun ys => (JSValue.arr ys, !(p.emptyArrays && ys.isEmpty))) ∧
    processArr xs p =
      (mapOption (fun v => elemResult v p) xs).map (fun os => os.filterMap id) := by
  intro xs p
  constructor
  · simp only [processNode]
    cases h : processArr xs p with
    | none => rfl
    | some ys => rfl
  · induction xs with
    | nil => simp [processArr, mapOption]
    | cons v rest ih =>
      simp only [processArr, mapOption]
      cases hr : processArr rest p with
      | none =>
        have hmap : mapOption (fun v => elemResult v p) rest = none := by
          rw [hr] at ih
          cases hm : mapOption (fun v => elemResult v p) rest with
          | none => rfl
          | some os => rw [hm] at ih; simp at ih
        cases he : elemResult v p with
        | none => rfl
        | some o =>
          dsimp only
          rw [hmap]
          rfl
      | some rest2 =>
        rw [hr] at ih
        cases hm : mapOption (fun v => elemResult v p) rest with
        | none => rw [hm] at ih; simp at ih
        | some os =>
          rw [hm] at ih
          simp only [Option.map_some', Option.some.injEq] at ih
          dsimp only
          by_cases hg : (p.nullMembers && isNullish v) = true
          · rw [if_pos hg]
            have he : elemResult v p = some none := by
              simp [elemResult, hg]
            rw [he]
            simp [ih]
          · rw [if_neg hg]
            cases hn : processNode v p with
            | none =>
              have he : elemResult v p = none := by
                simp [elemResult, hg, hn]
              rw [he]
              rfl
            | some pr =>
              obtain ⟨v2, ok⟩ := pr
              cases ok with
              | true =>
                have he : elemResult v p = some (some v2) := by
                  simp [elemResult, hg, hn]
                rw [he]
                simp [ih]
              | false =>
                have he : elemResult v p = some none := by
                  simp [elemResult, hg, hn]
                rw [he]
                simp [ih]

/-- Helper for C6: every element of a null-free list is null-free. -/
theorem nullFreeList_elem :
    ∀ (xs : List JSValue), nullFreeList xs = true → ∀ v ∈ xs, nullFree v = true := by
  intro xs
  induction xs with
  | nil => intro _ v hv; simp at hv
  | cons x rest ih =>
    intro h v hv
    simp only [nullFreeList, Bool.and_eq_true] at h
    rcases List.mem_cons.mp hv with heq | htail
    · subst heq; exact h.1
    · exact ih h.2 v htail

/-- Helper for C6: indexing with a default into a null-free list stays
null-free. -/
theorem nullFree_getD :
    ∀ (xs : List JSValue) (n : Nat), nullFreeList xs = true → nullFree (xs.getD n .undefined) = true := by
  intro xs
  induction xs with
  | nil => intro n _; cases n <;> rfl
  | cons x rest ih =>
    intro n h
    simp only [nullFreeList, Bool.and_eq_true] at h
    cases n with
    | zero => simpa using h.1
    | succ m => simpa using ih m h.2

/-- Helper for C6: array member access preserves null-freeness. -/
theorem nullFree_arrGet :
    ∀ (xs : List JSValue) (m : String), nullFreeList xs = true → nullFree (arrGet xs m) = true := by
  intro xs m h
  unfold arrGet
  by_cases hm : m = "length"
  · rw [if_pos hm]; rfl
  · rw [if_neg hm]
    cases hi : canonicalIndex? m with
    | some n => exact nullFree_getD xs n h
    | none => rfl

/-- Helper for C6: every member value of a null-free member list is
null-free. -/
theorem nullFreeMembers_elem :
    ∀ (kvs : List (String × JSValue)), nullFreeMembers kvs = true →
    ∀ kv ∈ kvs, nullFree kv.2 = true := by
  intro kvs
  induction kvs with
  | nil => intro _ kv hkv; simp at hkv
  | cons e rest ih =>
    intro h kv hkv
    simp only [nullFreeMembers, Bool.and_eq_true] at h
    rcases List.mem_cons.mp hkv with heq | htail
    · subst heq; exact h.1
    · exact ih h.2 kv htail

/-- Helper for C6: object member access preserves null-freeness. -/
theorem nullFree_objGet :
    ∀ (kvs : List (String × JSValue)) (m : String), nullFreeMembers kvs = true →
    nullFree (objGet kvs m) = true := by
  intro kvs m h
  unfold objGet
  cases hf : kvs.find? (fun e => e.1 == m) with
  | some e => exact nullFreeMembers_elem kvs h e (List.mem_of_find?_eq_some hf)
  | none => rfl

/-- Helper for C6: the resolver walk always produces a value on
null-free data. -/
theorem getValueLoop_total :
    ∀ (segs : List String) (v : JSValue), nullFree v = true →
    (getValueLoop v segs).isSome = true := by
  intro segs
  induction segs with
  | nil => intro v _; rfl
  | cons m rest ih =>
    intro v h
    cases v with
    | null => simp [nullFree] at h
    | arr xs =>
      exact ih _ (nullFree_arrGet xs (jsTrim m) (by simpa [nullFree] using h))
    | obj kvs =>
      exact ih _ (nullFree_objGet kvs (jsTrim m) (by simpa [nullFree] using h))
    | undefined => rfl
    | bool b => rfl
    | num n => rfl
    | str s => rfl

/-- C6: FALSIFIED on the "never raises" part.  `typeof null` is
`"object"`, so the walk attempts member access on `null` and throws a
TypeError: resolving any path against the data value `null` throws. -/
theorem c6_counterexample : getValue JSValue.null "x" = none := rfl

/-- C6 (amended): the resolver splits the path on `.`, trims each
segment and walks member access left to right (the definition of
`getValue`); as soon as the current value is not of object type — not an
object, an array, or `null` — the result is `undefined` for all
remaining segments; and it raises an error only when member access
reaches `null`: on data containing no `null` it always produces a
value. -/
theorem c6_resolver_safety :
    (∀ (v : JSValue) (m : String) (ms : List String), scalarOrUndef v = true →
      getValueLoop v (m :: ms) = some JSValue.undefined) ∧
    (∀ (data : JSValue) (path : String), nullFree data = true →
      (getValue data path).isSome = true) := by
  constructor
  · intro v m ms hs
    cases v <;> first | rfl | simp [scalarOrUndef] at hs
  · intro data path h
    exact getValueLoop_total (jsSplit path '.') data h

/-- C6 witness: the scalar cut-off and the null-free totality applied at
concrete inputs. -/
theorem c6_resolver_safety_witness :
    getValueLoop (.str "hi") ["a", "b"] = some JSValue.undefined ∧
    (getValue (.obj [("a", .num 1)]) "a.b.c").isSome = true :=
  ⟨c6_resolver_safety.1 (.str "hi") "a" ["b"] rfl,
   c6_resolver_safety.2 (.obj [("a", .num 1)]) "a.b.c" rfl⟩

/-- Helper: every element surviving the array loop is the successful
result of processing some element of the input array under the same
config. -/
theorem processArr_elems :
    ∀ (xs : List JSValue) (p : Prune) (ys : List JSValue),
    processArr xs p = some ys → ∀ y ∈ ys, ∃ x ∈ xs, processNode x p = some (y, true) := by
  intro xs
  induction xs with
  | nil =>
    intro p ys h y hy
    simp only [processArr, Option.some.injEq] at h
    subst h
    simp at hy
  | cons v rest ih =>
    intro p ys h y hy
    simp only [processArr] at h
    cases hr : processArr rest p with
    | none => rw [hr] at h; simp at h
    | some rest2 =>
      rw [hr] at h
      replace h : (if (p.nullMembers && isNullish v) = true then some rest2
          else match processNode v p with
          | none => none
          | some (v2, ok) => if ok = true then some (v2 :: rest2) else some rest2) = some ys := h
      by_cases hg : (p.nullMembers && isNullish v) = true
      · rw [if_pos hg] at h
        simp only [Option.some.injEq] at h
        subst h
        obtain ⟨x, hx, hq⟩ := ih p rest2 hr y hy
        exact ⟨x, List.mem_cons_of_mem _ hx, hq⟩
      · rw [if_neg hg] at h
        cases hn : processNode v p with
        | none => rw [hn] at h; simp at h
        | some pr =>
          obtain ⟨v2, ok⟩ := pr
          rw [hn] at h
          cases ok with
          | true =>
            simp only [if_pos, Option.some.injEq] at h
            subst h
            rcases List.mem_cons.mp hy with heq | htail
            · subst heq
              exact ⟨v, List.mem_cons_self v rest, hn⟩
            · obtain ⟨x, hx, hq⟩ := ih p rest2 hr y htail
              exact ⟨x, List.mem_cons_of_mem _ hx, hq⟩
          | false =>
            simp only [Bool.false_eq_true, if_false, Option.some.injEq] at h
            subst h
            obtain ⟨x, hx, hq⟩ := ih p rest2 hr y hy
            exact ⟨x, List.mem_cons_of_mem _ hx, hq⟩

/-- Helper: every member surviving the member loop has a non-directive
key and carries the successful processing result of a member of the
input list (under the config in force when it was reached). -/
theorem processMembers_elems :
    ∀ (kvs : List (String × JSValue)) (p : Prune) (ms : List (String × JSValue)) (cs : List JSValue),
    processMembers kvs p = some (ms, cs) →
    ∀ kv ∈ ms, kv.1 ≠ "@prune" ∧ kv.1 ≠ "@if" ∧
      ∃ x ∈ kvs, x.1 = kv.1 ∧ ∃ q, processNode x.2 q = some (kv.2, true) := by
  intro kvs
  induction kvs with
  | nil =>
    intro p ms cs h kv hkv
    simp only [processMembers, Option.some.injEq, Prod.mk.injEq] at h
    obtain ⟨hms, _⟩ := h
    subst hms
    simp at hkv
  | cons e rest ih =>
    intro p ms cs h kv hkv
    obtain ⟨k, v⟩ := e
    simp only [processMembers] at h
    by_cases hk1 : k = "@prune"
    · rw [if_pos hk1] at h
      obtain ⟨h1, h2, x, hx, hx1, q, hq⟩ := ih (mergePrune p v) ms cs h kv hkv
      exact ⟨h1, h2, x, List.mem_cons_of_mem _ hx, hx1, q, hq⟩
    · rw [if_neg hk1] at h
      by_cases hk2 : k = "@if"
      · rw [if_pos hk2] at h
        cases hpm : processMembers rest p with
        | none => rw [hpm] at h; simp at h
        | some pr =>
          obtain ⟨ms2, cs2⟩ := pr
          rw [hpm] at h
          simp only [Option.some.injEq, Prod.mk.injEq] at h
          obtain ⟨hms, _⟩ := h
          subst hms
          obtain ⟨h1, h2, x, hx, hx1, q, hq⟩ := ih p ms2 cs2 hpm kv hkv
          exact ⟨h1, h2, x, List.mem_cons_of_mem _ hx, hx1, q, hq⟩
      · rw [if_neg hk2] at h
        by_cases hg1 : (p.nullMembers && isNullish v) = true
        · rw [if_pos hg1] at h
          obtain ⟨h1, h2, x, hx, hx1, q, hq⟩ := ih p ms cs h kv hkv
          exact ⟨h1, h2, x, List.mem_cons_of_mem _ hx, hx1, q, hq⟩
        · rw [if_neg hg1] at h
          by_cases hg2 : (p.emptyStrings && isEmptyTrimStr v) = true
          · rw [if_pos hg2] at h
            obtain ⟨h1, h2, x, hx, hx1, q, hq⟩ := ih p ms cs h kv hkv
            exact ⟨h1, h2, x, List.mem_cons_of_mem _ hx, hx1, q, hq⟩
          · rw [if_neg hg2] at h
            by_cases hg3 : (p.emptyArrays && isEmptyArr v) = true
            · rw [if_pos hg3] at h
              obtain ⟨h1, h2, x, hx, hx1, q, hq⟩ := ih p ms cs h kv hkv
              exact ⟨h1, h2, x, List.mem_cons_of_mem _ hx, hx1, q, hq⟩
            · rw [if_neg hg3] at h
              cases hn : processNode v p with
              | none => rw [hn] at h; simp at h
              | some pr =>
                obtain ⟨v2, ok⟩ := pr
                rw [hn] at h
                cases ok with
                | false =>
                  simp only [Bool.false_eq_true, if_false] at h
                  obtain ⟨h1, h2, x, hx, hx1, q, hq⟩ := ih p ms cs h kv hkv
                  exact ⟨h1, h2, x, List.mem_cons_of_mem _ hx, hx1, q, hq⟩
                | true =>
                  simp only [if_pos] at h
                  cases hpm : processMembers rest p with
                  | none => rw [hpm] at h; simp at h
                  | some pr2 =>
                    obtain ⟨ms2, cs2⟩ := pr2
                    rw [hpm] at h
                    simp only [Option.some.injEq, Prod.mk.injEq] at h
                    obtain ⟨hms, _⟩ := h
                    subst hms
                    rcases List.mem_cons.mp hkv with heq | htail
                    · subst heq
                      exact ⟨hk1, hk2, (k, v), List.mem_cons_self _ rest, rfl, p, hn⟩
                    · obtain ⟨h1, h2, x, hx, hx1, q, hq⟩ := ih p ms2 cs2 hpm kv htail
                      exact ⟨h1, h2, x, List.mem_cons_of_mem _ hx, hx1, q, hq⟩

/-- Helper: elementwise directive-freeness gives list
directive-freeness. -/
theorem directiveFreeList_of :
    ∀ (xs : List JSValue), (∀ v ∈ xs, directiveFree v = true) → directiveFreeList xs = true := by
  intro xs
  induction xs with
  | nil => intro _; rfl
  | cons v rest ih =>
    intro h
    simp only [directiveFreeList, Bool.and_eq_true]
    exact ⟨h v (List.mem_cons_self v rest), ih (fun w hw => h w (List.mem_cons_of_mem _ hw))⟩

/-- Helper: memberwise directive-freeness gives member-list
directive-freeness. -/
theorem directiveFreeMembers_of :
    ∀ (kvs : List (String × JSValue)),
    (∀ kv ∈ kvs, kv.1 ≠ "@prune" ∧ kv.1 ≠ "@if" ∧ directiveFree kv.2 = true) →
    directiveFreeMembers kvs = true := by
  intro kvs
  induction kvs with
  | nil => intro _; rfl
  | cons e rest ih =>
    intro h
    obtain ⟨k, v⟩ := e
    obtain ⟨h1, h2, h3⟩ := h (k, v) (List.mem_cons_self _ rest)
    simp only [directiveFreeMembers]
    rw [if_neg (by tauto)]
    simp only [Bool.and_eq_true]
    exact ⟨h3, ih (fun kv hkv => h kv (List.mem_cons_of_mem _ hkv))⟩

/-- Helper: list directive-freeness gives it elementwise. -/
theorem directiveFreeList_elem :
    ∀ (xs : List JSValue), directiveFreeList xs = true → ∀ v ∈ xs, directiveFree v = true := by
  intro xs
  induction xs with
  | nil => intro _ v hv; simp at hv
  | cons x rest ih =>
    intro h v hv
    simp only [directiveFreeList, Bool.and_eq_true] at h
    rcases List.mem_cons.mp hv with heq | htail
    · subst heq; exact h.1
    · exact ih h.2 v htail

/-- Helper: member-list directive-freeness gives it memberwise. -/
theorem directiveFreeMembers_elem :
    ∀ (kvs : List (String × JSValue)), directiveFreeMembers kvs = true →
    ∀ kv ∈ kvs, kv.1 ≠ "@prune" ∧ kv.1 ≠ "@if" ∧ directiveFree kv.2 = true := by
  intro kvs
  induction kvs with
  | nil => intro _ kv hkv; simp at hkv
  | cons e rest ih =>
    intro h kv hkv
    obtain ⟨k, v⟩ := e
    simp only [directiveFreeMembers] at h
    by_cases hk : k = "@prune" ∨ k = "@if"
    · rw [if_pos hk] at h; simp at h
    · rw [if_neg hk] at h
      simp only [Bool.and_eq_true] at h
      rcases List.mem_cons.mp hkv with heq | htail
      · subst heq
        exact ⟨fun hc => hk (Or.inl hc), fun hc => hk (Or.inr hc), h.1⟩
      · exact ih h.2 kv htail

/-- Helper for C9: whatever `processNode` returns (surviving or not) has
every directive key stripped, at every depth. -/
theorem processNode_directiveFree :
    ∀ (v : JSValue), ∀ (p : Prune) (r : JSValue) (b : Bool),
    processNode v p = some (r, b) → directiveFree r = true := by
  intro v
  induction v using jsval_induction with
  | hundefined =>
    intro p r b h
    simp only [processNode, Option.some.injEq, Prod.mk.injEq] at h
    obtain ⟨h1, _⟩ := h
    subst h1
    rfl
  | hnull =>
    intro p r b h
    simp only [processNode, Option.some.injEq, Prod.mk.injEq] at h
    obtain ⟨h1, _⟩ := h
    subst h1
    rfl
  | hbool c =>
    intro p r b h
    simp only [processNode, Option.some.injEq, Prod.mk.injEq] at h
    obtain ⟨h1, _⟩ := h
    subst h1
    rfl
  | hnum n =>
    intro p r b h
    simp only [processNode, Option.some.injEq, Prod.mk.injEq] at h
    obtain ⟨h1, _⟩ := h
    subst h1
    rfl
  | hstr s =>
    intro p r b h
    simp only [processNode, Option.some.injEq, Prod.mk.injEq] at h
    obtain ⟨h1, _⟩ := h
    subst h1
    rfl
  | harr xs hIH =>
    intro p r b h
    simp only [processNode] at h
    cases ha : processArr xs p with
    | none => rw [ha] at h; simp at h
    | some ys =>
      rw [ha] at h
      simp only [Option.some.injEq, Prod.mk.injEq] at h
      obtain ⟨h1, _⟩ := h
      subst h1
      simp only [directiveFree]
      apply directiveFreeList_of
      intro y hy
      obtain ⟨x, hx, hq⟩ := processArr_elems xs p ys ha y hy
      exact hIH x hx p y true hq
  | hobj kvs hIH =>
    intro p r b h
    simp only [processNode] at h
    cases hm : processMembers kvs p with
    | none => rw [hm] at h; simp at h
    | some pr =>
      obtain ⟨ms, cs⟩ := pr
      rw [hm] at h
      replace h : (match evalConditions (.obj ms) cs with
          | none => none
          | some b => some (JSValue.obj ms, b)) = some (r, b) := h
      cases he : evalConditions (.obj ms) cs with
      | none => rw [he] at h; simp at h
      | some b2 =>
        rw [he] at h
        simp only [Option.some.injEq, Prod.mk.injEq] at h
        obtain ⟨h1, _⟩ := h
        subst h1
        simp only [directiveFree]
        apply directiveFreeMembers_of
        intro kv hkv
        obtain ⟨h1, h2, x, hx, _, q, hq⟩ := processMembers_elems kvs p ms cs hm kv hkv
        exact ⟨h1, h2, hIH x hx q kv.2 true hq⟩

/-- Helper for C9: the array loop under the empty prune options keeps a
directive-free list unchanged, provided every element reprocesses to
itself. -/
theorem processArr_id :
    ∀ (xs : List JSValue),
    (∀ v ∈ xs, directiveFree v = true → processNode v emptyPrune = some (v, true)) →
    directiveFreeList xs = true → processArr xs emptyPrune = some xs := by
  intro xs
  induction xs with
  | nil => intro _ _; rfl
  | cons v rest ih =>
    intro hself h
    simp only [directiveFreeList, Bool.and_eq_true] at h
    simp only [processArr]
    rw [ih (fun w hw => hself w (List.mem_cons_of_mem _ hw)) h.2]
    have hnode := hself v (List.mem_cons_self v rest) h.1
    rw [show (emptyPrune.nullMembers && isNullish v) = false from rfl]
    simp only [Bool.false_eq_true, if_false]
    rw [hnode]
    rfl

/-- Helper for C9: the member loop under the empty prune options keeps a
directive-free member list unchanged and collects no conditions,
provided every member value reprocesses to itself. -/
theorem processMembers_id :
    ∀ (kvs : List (String × JSValue)),
    (∀ kv ∈ kvs, directiveFree kv.2 = true → processNode kv.2 emptyPrune = some (kv.2, true)) →
    directiveFreeMembers kvs = true → processMembers kvs emptyPrune = some (kvs, []) := by
  intro kvs
  induction kvs with
  | nil => intro _ _; rfl
  | cons e rest ih =>
    intro hself h
    obtain ⟨k, v⟩ := e
    simp only [directiveFreeMembers] at h
    by_cases hk : k = "@prune" ∨ k = "@if"
    · rw [if_pos hk] at h; simp at h
    · rw [if_neg hk] at h
      simp only [Bool.and_eq_true] at h
      have hnode := hself (k, v) (List.mem_cons_self _ rest) h.1
      simp only [processMembers]
      rw [if_neg (fun hc => hk (Or.inl hc)), if_neg (fun hc => hk (Or.inr hc))]
      rw [show (emptyPrune.nullMembers && isNullish v) = false from rfl]
      rw [show (emptyPrune.emptyStrings && isEmptyTrimStr v) = false from rfl]
      rw [show (emptyPrune.emptyArrays && isEmptyArr v) = false from rfl]
      simp only [Bool.false_eq_true, if_false]
      rw [hnode]
      rw [ih (fun kv hkv => hself kv (List.mem_cons_of_mem _ hkv)) h.2]
      rfl

/-- Helper for C9: a directive-free value passes through `processNode`
under the empty prune options unchanged and successfully. -/
theorem processNode_id_of_directiveFree :
    ∀ (v : JSValue), directiveFree v = true → processNode v emptyPrune = some (v, true) := by
  intro v
  induction v using jsval_induction with
  | hundefined => intro _; rfl
  | hnull => intro _; rfl
  | hbool c => intro _; rfl
  | hnum n => intro _; rfl
  | hstr s => intro _; rfl
  | harr xs hIH =>
    intro h
    simp only [directiveFree] at h
    simp only [processNode]
    rw [processArr_id xs hIH h]
    rfl
  | hobj kvs hIH =>
    intro h
    simp only [directiveFree] at h
    simp only [processNode]
    rw [processMembers_id kvs hIH h]
    rfl

/-- C9: `postProcess` is idempotent.  A successful first pass strips
every directive key and performs every pruning its options demand, and
the second pass starts again from the empty (all-falsy) options, so it
finds nothing to prune and no directive to evaluate; a failed root
yields `undefined`, on which `postProcess` is the identity. -/
theorem c9_postprocess_idempotent :
    ∀ (v r : JSValue), postProcess v = some r → postProcess r = some r := by
  intro v r h
  unfold postProcess at h
  cases hn : processNode v emptyPrune with
  | none => rw [hn] at h; simp at h
  | some pr =>
    obtain ⟨r0, b⟩ := pr
    rw [hn] at h
    cases b with
    | false =>
      simp only [Option.some.injEq] at h
      subst h
      rfl
    | true =>
      simp only [Option.some.injEq] at h
      subst h
      have hdf := processNode_directiveFree v emptyPrune r0 true hn
      have hid := processNode_id_of_directiveFree r0 hdf
      unfold postProcess
      rw [hid]

/-- C9 witness: the idempotence theorem applied to a value whose first
pass consumes an `@if` directive. -/
theorem c9_postprocess_idempotent_witness :
    postProcess (.obj [("@if", .str "a"), ("a", .num 1)]) = some (.obj [("a", .num 1)]) ∧
    postProcess (.obj [("a", .num 1)]) = some (.obj [("a", .num 1)]) :=
  ⟨rfl, c9_postprocess_idempotent (.obj [("@if", .str "a"), ("a", .num 1)]) (.obj [("a", .num 1)]) rfl⟩

/-- Helper for C3: when every collected condition resolves to a value,
the condition loop reports failure exactly when some condition's value
is falsy. -/
theorem evalConditions_false_iff :
    ∀ (node : JSValue) (cs : List JSValue),
    (∀ c ∈ cs, (condValue node c).isSome = true) →
    (evalConditions node cs = some false ↔
      ∃ c ∈ cs, ∃ w, condValue node c = some w ∧ truthy w = false) := by
  intro node cs
  induction cs with
  | nil =>
    intro _
    simp [evalConditions]
  | cons c rest ih =>
    intro htot
    have hc := htot c (List.mem_cons_self c rest)
    cases hcv : condValue node c with
    | none => rw [hcv] at hc; simp at hc
    | some w =>
      have hstep : evalConditions node (c :: rest) =
          (if truthy w = true then evalConditions node rest else some false) := by
        simp only [evalConditions, hcv]
      rw [hstep]
      by_cases hw : truthy w = true
      · rw [if_pos hw]
        rw [ih (fun c2 hc2 => htot c2 (List.mem_cons_of_mem _ hc2))]
        constructor
        · rintro ⟨c2, hc2, w2, hw2, hf⟩
          exact ⟨c2, List.mem_cons_of_mem _ hc2, w2, hw2, hf⟩
        · rintro ⟨c2, hc2, w2, hw2, hf⟩
          rcases List.mem_cons.mp hc2 with heq | htail
          · subst heq
            rw [hcv] at hw2
            injection hw2 with hw2
            subst hw2
            rw [hw] at hf
            simp at hf
          · exact ⟨c2, htail, w2, hw2, hf⟩
      · have hw2 : truthy w = false := by simpa using hw
        rw [if_neg hw]
        constructor
        · intro _
          exact ⟨c, List.mem_cons_self c rest, w, hcv, hw2⟩
        · intro _
          rfl

/-- C3: directive handling on an object node.  (1) The node's result is
obtained by first processing every member (`processMembers`, which
removes every `@if`/`@prune` key and collects the `@if` conditions) and
only then evaluating the collected conditions against the node in its
already-pruned state, keeping the pruned members whether or not the node
survives; (2) no surviving member is a directive key; (3) when every
collected condition resolves, the node fails if and only if at least one
collected condition's resolved value is falsy (the conditions are
AND-ed). -/
theorem c3_deferred_conditions :
    ∀ (kvs : List (String × JSValue)) (p : Prune) (ms : List (String × JSValue)) (cs : List JSValue),
    processMembers kvs p = some (ms, cs) →
    (processNode (.obj kvs) p =
      match evalConditions (.obj ms) cs with
      | none => none
      | some b => some (.obj ms, b)) ∧
    (∀ kv ∈ ms, kv.1 ≠ "@if" ∧ kv.1 ≠ "@prune") ∧
    ((∀ c ∈ cs, (condValue (.obj ms) c).isSome = true) →
      (processNode (.obj kvs) p = some (.obj ms, false) ↔
        ∃ c ∈ cs, ∃ w, condValue (.obj ms) c = some w ∧ truthy w = false)) := by
  intro kvs p ms cs h
  have heq : processNode (.obj kvs) p =
      match evalConditions (.obj ms) cs with
      | none => none
      | some b => some (.obj ms, b) := by
    simp only [processNode]
    rw [h]
  refine ⟨heq, ?_, ?_⟩
  · intro kv hkv
    obtain ⟨h1, h2, _⟩ := processMembers_elems kvs p ms cs h kv hkv
    exact ⟨h2, h1⟩
  · intro htot
    rw [heq, ← evalConditions_false_iff (.obj ms) cs htot]
    cases he : evalConditions (.obj ms) cs with
    | none =>
      constructor
      · intro hx; simp at hx
      · intro hx; simp at hx
    | some b =>
      cases b with
      | true =>
        constructor
        · intro hx; simp at hx
        · intro hx; simp at hx
      | false =>
        constructor
        · intro _; rfl
        · intro _; rfl

/-- C3 witness: an object with one `@if` on an existing falsy member
fails after its members were processed, with the directive key
removed. -/
theorem c3_deferred_conditions_witness :
    processNode (.obj [("@if", .str "a"), ("a", .num 0)]) emptyPrune =
      some (.obj [("a", .num 0)], false) := by
  have h := c3_deferred_conditions [("@if", .str "a"), ("a", .num 0)] emptyPrune
    [("a", .num 0)] [.str "a"] rfl
  refine (h.2.2 ?_).mpr ?_
  · intro c hc
    have : c = JSValue.str "a" := by simpa using hc
    subst this
    rfl
  · exact ⟨.str "a", by simp, .num 0, rfl, rfl⟩

/-- C4: Prune Config scoping.  (1) Processing the members `xs ++ ys` of
one object under config `p` processes `xs` under `p` and then `ys` under
`pruneAfter p xs` — the inherited config merged, in order, with exactly
the `@prune` directives among `xs` — so the config a member sees is the
nearest enclosing `@prune`-merged config; since `pruneAfter` never looks
inside member values, nothing a sibling subtree does can change it, and
since `processNode` returns no config, a subtree's merges are never seen
by any ancestor.  (2) Replacing the value of a non-`@prune` member
leaves the config for the following members unchanged. -/
theorem c4_prune_scoping :
    ∀ (xs ys : List (String × JSValue)) (p : Prune),
    (processMembers (xs ++ ys) p =
      match processMembers xs p with
      | none => none
      | some (ms1, cs1) =>
        match processMembers ys (pruneAfter p xs) with
        | none => none
        | some (ms2, cs2) => some (ms1 ++ ms2, cs1 ++ cs2)) ∧
    (∀ (k : String) (v w : JSValue) (rest : List (String × JSValue)) (q : Prune),
      k ≠ "@prune" → pruneAfter q ((k, v) :: rest) = pruneAfter q ((k, w) :: rest)) := by
  intro xs ys p
  constructor
  · induction xs generalizing p with
    | nil =>
      simp only [List.nil_append, pruneAfter]
      cases h : processMembers ys p with
      | none => rfl
      | some pr =>
        obtain ⟨ms2, cs2⟩ := pr
        rfl
    | cons e rest ih =>
      obtain ⟨k, v⟩ := e
      simp only [List.cons_append, processMembers, pruneAfter, List.append_eq]
      by_cases hk1 : k = "@prune"
      · simp only [if_pos hk1]
        exact ih (mergePrune p v)
      · simp only [if_neg hk1]
        by_cases hk2 : k = "@if"
        · simp only [if_pos hk2]
          rw [ih p]
          cases h1 : processMembers rest p with
          | none => rfl
          | some pr1 =>
            obtain ⟨ms1, cs1⟩ := pr1
            cases h2 : processMembers ys (pruneAfter p rest) with
            | none => rfl
            | some pr2 =>
              obtain ⟨ms2, cs2⟩ := pr2
              rfl
        · simp only [if_neg hk2]
          by_cases hg1 : (p.nullMembers && isNullish v) = true
          · simp only [if_pos hg1]
            exact ih p
          · simp only [if_neg hg1]
            by_cases hg2 : (p.emptyStrings && isEmptyTrimStr v) = true
            · simp only [if_pos hg2]
              exact ih p
            · simp only [if_neg hg2]
              by_cases hg3 : (p.emptyArrays && isEmptyArr v) = true
              · simp only [if_pos hg3]
                exact ih p
              · simp only [if_neg hg3]
                cases hn : processNode v p with
                | none => rfl
                | some pr =>
                  obtain ⟨v2, ok⟩ := pr
                  cases ok with
                  | false =>
                    simp only [Bool.false_eq_true, if_false]
                    exact ih p
                  | true =>
                    simp only [if_true]
                    rw [ih p]
                    cases h1 : processMembers rest p with
                    | none => rfl
                    | some pr1 =>
                      obtain ⟨ms1, cs1⟩ := pr1
                      cases h2 : processMembers ys (pruneAfter p rest) with
                      | none => rfl
                      | some pr2 =>
                        obtain ⟨ms2, cs2⟩ := pr2
                        rfl
  · intro k v w rest q hk
    simp only [pruneAfter, if_neg hk]

/-- C4 witness: the decomposition applied to a concrete `@prune`
directive followed by a sibling member, and the invariance of the
following config under a change of a non-`@prune` member value. -/
theorem c4_prune_scoping_witness :
    processMembers ([("@prune", .obj [("nullMembers", .bool true)])] ++ [("a", .null)]) emptyPrune =
      some ([], []) ∧
    pruneAfter emptyPrune [("a", .num 1)] = pruneAfter emptyPrune [("a", .num 2)] := by
  have h := c4_prune_scoping [("@prune", .obj [("nullMembers", .bool true)])] [("a", .null)] emptyPrune
  constructor
  · rw [h.1]
    rfl
  · exact h.2 "a" (.num 1) (.num 2) [] emptyPrune (by decide)
